import Mathlib

/-!
Verification development for the bone-renaming script
(rename_armature_to_ue_standard.py).

The script renames armature bones to the Unreal Engine naming convention.
It classifies a rig as one of three source conventions (VRM / Rigify /
Mixamo), builds a name mapping (static table plus dynamic resolvers),
partitions bones into rename / delete / standardize buckets, and applies
them through the host's bone collection.

The embedding below translates the script's pure logic directly.  Bone
names are Lean Strings; all string primitives are implemented over the
underlying character lists so that every definition evaluates inside the
kernel.  Python specifics that the translation mirrors:

  * str.replace scans left to right, non-overlapping;
  * re.sub(r"\.(\d+)", r"_\1", s) replaces each '.' that is immediately
    followed by a digit with '_' (the digits are kept verbatim by \1, and
    digits inside a match never contain a further '.');
  * re.sub(r"_+", "_", s) collapses each run of underscores to one;
  * str.lower / \w are modelled on ASCII (all names the script handles
    are ASCII);
  * sorted(...) on strings is lexicographic by code point; taking the
    last element of the sorted list yields the lexicographic maximum;
  * dict literals and dict updates with fresh keys preserve insertion
    order, so mappings are association lists in insertion order.
-/

namespace RenameArmature

/-- ASCII digit test (kernel-reducible). -/
def isDigitC (c : Char) : Bool := 48 ≤ c.toNat && c.toNat ≤ 57

/-- ASCII word character, modelling Python's regex class \w. -/
def isWordC (c : Char) : Bool :=
  isDigitC c || (65 ≤ c.toNat && c.toNat ≤ 90) || (97 ≤ c.toNat && c.toNat ≤ 122) || c == '_'

/-- Does pattern p occur at the start of s? -/
def prefixB : List Char → List Char → Bool
  | [], _ => true
  | _ :: _, [] => false
  | a :: as, b :: bs => a == b && prefixB as bs

/-- Models Python str.startswith. -/
def strStarts (s pat : String) : Bool := prefixB pat.data s.data

/-- Models Python str.endswith. -/
def strEnds (s pat : String) : Bool := prefixB pat.data.reverse s.data.reverse

/-- Zero-padded decimal, at least two digits: models Python format "%02d". -/
def pad2 (n : Nat) : String := if n < 10 then "0" ++ Nat.repr n else Nat.repr n

/-- Zero-padded decimal, at least three digits: models Python format "%03d". -/
def pad3 (n : Nat) : String :=
  if n < 10 then "00" ++ Nat.repr n
  else if n < 100 then "0" ++ Nat.repr n
  else Nat.repr n

/-- Numeric value of a (non-empty) digit string, models Python int(). -/
def digitsToNat (ds : List Char) : Nat := ds.foldl (fun a c => a * 10 + (c.toNat - 48)) 0

/-- Python str.replace for a two-character pattern replaced by two characters,
scanning left to right without overlap.  Used for ".L" -> "_l" and ".R" -> "_r". -/
def replace2 (p1 p2 q1 q2 : Char) : List Char → List Char
  | [] => []
  | [c] => [c]
  | c :: d :: rest =>
    if c == p1 && d == p2 then q1 :: q2 :: replace2 p1 p2 q1 q2 rest
    else c :: replace2 p1 p2 q1 q2 (d :: rest)

/-- Models re.sub(r"\.(\d+)", r"_\1", s): each '.' immediately followed by a
digit becomes '_'; everything else (the digits included) is kept. -/
def subDotDigits : List Char → List Char
  | [] => []
  | [c] => [c]
  | c :: d :: rest =>
    (if c == '.' && isDigitC d then '_' else c) :: subDotDigits (d :: rest)

/-- ASCII lower-casing of one character, models Python str.lower on the
ASCII names the script handles. -/
def lowerC (c : Char) : Char :=
  if 65 ≤ c.toNat && c.toNat ≤ 90 then Char.ofNat (c.toNat + 32) else c

/-- Models re.sub(r"_+", "_", s): collapse runs of underscores to one. -/
def collapseU : List Char → List Char
  | [] => []
  | [c] => [c]
  | c :: d :: rest =>
    if c == '_' && d == '_' then collapseU (d :: rest)
    else c :: collapseU (d :: rest)

/-- The name normalizer standardize_bone_name:
".L"/".R" replaced, then dot-digit rewritten, then lower-cased, then
underscore runs collapsed. -/
def standardize_bone_name (name : String) : String :=
  String.mk (collapseU (List.map lowerC (subDotDigits
    (replace2 '.' 'R' '_' 'r' (replace2 '.' 'L' '_' 'l' name.data)))))

/-- The three source conventions the classifier distinguishes.  VRM is the
fallback (the humanoid-avatar standard, also covering unrecognized rigs). -/
inductive SkeletonType where
  | vrm
  | rigify
  | mixamo
deriving DecidableEq, Repr

/-- VRM base mapping table (VRM_BASE_MAP). -/
def VRM_BASE_MAP : List (String × String) :=
  [("hips", "pelvis"), ("spine", "spine_01"), ("neck", "neck_01"), ("head", "head"),
   ("shoulder.L", "clavicle_l"), ("shoulder.R", "clavicle_r"),
   ("upper_arm.L", "upperarm_l"), ("upper_arm.R", "upperarm_r"),
   ("lower_arm.L", "lowerarm_l"), ("lower_arm.R", "lowerarm_r"),
   ("hand.L", "hand_l"), ("hand.R", "hand_r"),
   ("upper_leg.L", "thigh_l"), ("upper_leg.R", "thigh_r"),
   ("lower_leg.L", "calf_l"), ("lower_leg.R", "calf_r"),
   ("foot.L", "foot_l"), ("foot.R", "foot_r"),
   ("toes.L", "ball_l"), ("toes.R", "ball_r")]

/-- Rigify base mapping table (RIGIFY_BASE_MAP). -/
def RIGIFY_BASE_MAP : List (String × String) :=
  [("pelvis.L", "pelvis_l"), ("pelvis.R", "pelvis_r"),
   ("spine", "spine_01"), ("neck", "neck_01"), ("head", "head"),
   ("shoulder.L", "clavicle_l"), ("shoulder.R", "clavicle_r"),
   ("upper_arm.L", "upperarm_l"), ("upper_arm.R", "upperarm_r"),
   ("forearm.L", "lowerarm_l"), ("forearm.R", "lowerarm_r"),
   ("hand.L", "hand_l"), ("hand.R", "hand_r"),
   ("thigh.L", "thigh_l"), ("thigh.R", "thigh_r"),
   ("shin.L", "calf_l"), ("shin.R", "calf_r"),
   ("foot.L", "foot_l"), ("foot.R", "foot_r"),
   ("toe.L", "ball_l"), ("toe.R", "ball_r"),
   ("palm.01.L", "index_metacarpal_l"), ("palm.02.L", "middle_metacarpal_l"),
   ("palm.03.L", "ring_metacarpal_l"), ("palm.04.L", "pinky_metacarpal_l"),
   ("palm.01.R", "index_metacarpal_r"), ("palm.02.R", "middle_metacarpal_r"),
   ("palm.03.R", "ring_metacarpal_r"), ("palm.04.R", "pinky_metacarpal_r")]

/-- Mixamo base mapping table (MIXAMO_BASE_MAP), keys without the
"mixamorig:" namespace (it is prepended when the mapping is built). -/
def MIXAMO_BASE_MAP : List (String × String) :=
  [("Hips", "pelvis"),
   ("Spine", "spine_01"), ("Spine1", "spine_02"), ("Spine2", "spine_03"),
   ("Neck", "neck_01"), ("Head", "head"),
   ("LeftShoulder", "clavicle_l"), ("RightShoulder", "clavicle_r"),
   ("LeftArm", "upperarm_l"), ("RightArm", "upperarm_r"),
   ("LeftForeArm", "lowerarm_l"), ("RightForeArm", "lowerarm_r"),
   ("LeftHand", "hand_l"), ("RightHand", "hand_r"),
   ("LeftUpLeg", "thigh_l"), ("RightUpLeg", "thigh_r"),
   ("LeftLeg", "calf_l"), ("RightLeg", "calf_r"),
   ("LeftFoot", "foot_l"), ("RightFoot", "foot_r"),
   ("LeftToeBase", "ball_l"), ("RightToeBase", "ball_r")]

/-- Finger loop data shared by the three conventions:
(source finger name, target finger name). -/
def mixamoFingers : List (String × String) :=
  [("Thumb", "thumb"), ("Index", "index"), ("Middle", "middle"),
   ("Ring", "ring"), ("Pinky", "pinky")]

/-- Mixamo finger sub-mapping: joints 1..3 per finger, left then right
(joint 4 is excluded; it is scheduled for deletion instead). -/
def mixamoFingerMap : List (String × String) :=
  mixamoFingers.flatMap (fun fb =>
    [1, 2, 3].flatMap (fun i =>
      [("mixamorig:LeftHand" ++ fb.1 ++ Nat.repr i, fb.2 ++ "_" ++ pad2 i ++ "_l"),
       ("mixamorig:RightHand" ++ fb.1 ++ Nat.repr i, fb.2 ++ "_" ++ pad2 i ++ "_r")]))

/-- The full Mixamo mapping: base entries with the namespace prepended,
then the finger entries, in insertion order. -/
def mixamoMapping : List (String × String) :=
  MIXAMO_BASE_MAP.map (fun p => ("mixamorig:" ++ p.1, p.2)) ++ mixamoFingerMap

/-- Rigify finger loop data. -/
def rigifyFingers : List (String × String) :=
  [("thumb", "thumb"), ("index", "index"), ("middle", "middle"),
   ("ring", "ring"), ("pinky", "pinky")]

/-- Rigify finger sub-mapping: thumb.0i.L etc. for f-prefixed fingers. -/
def rigifyFingerMap : List (String × String) :=
  rigifyFingers.flatMap (fun fb =>
    [1, 2, 3].flatMap (fun i =>
      let part := ".0" ++ Nat.repr i
      let src := if fb.1 == "thumb" then "thumb" ++ part else "f_" ++ fb.1 ++ part
      [(src ++ ".L", fb.2 ++ "_" ++ pad2 i ++ "_l"),
       (src ++ ".R", fb.2 ++ "_" ++ pad2 i ++ "_r")]))

/-- The full Rigify mapping. -/
def rigifyMapping : List (String × String) := RIGIFY_BASE_MAP ++ rigifyFingerMap

/-- VRM finger loop data ("little" is renamed to the target "pinky"). -/
def vrmFingers : List (String × String) :=
  [("thumb", "thumb"), ("index", "index"), ("middle", "middle"),
   ("ring", "ring"), ("little", "pinky")]

/-- VRM finger joint name parts, indexed 1..3. -/
def vrmParts : List (Nat × String) :=
  [(1, "_proximal"), (2, "_intermediate"), (3, "_distal")]

/-- VRM finger sub-mapping. -/
def vrmFingerMap : List (String × String) :=
  vrmFingers.flatMap (fun fb =>
    vrmParts.flatMap (fun ip =>
      [(fb.1 ++ ip.2 ++ ".L", fb.2 ++ "_" ++ pad2 ip.1 ++ "_l"),
       (fb.1 ++ ip.2 ++ ".R", fb.2 ++ "_" ++ pad2 ip.1 ++ "_r")]))

/-- The full VRM mapping. -/
def vrmMapping : List (String × String) := VRM_BASE_MAP ++ vrmFingerMap

/-- The Rigify structural indicators of get_bone_mapping_and_type:
a segmented spine name, a palm name, an f-prefixed finger name, or a
forearm / shin side bone. -/
def rigifyIndicator (names : List String) : Bool :=
  names.any (fun n => strStarts n "spine." && n != "spine") ||
  names.any (fun n => strStarts n "palm.") ||
  names.any (fun n => strStarts n "f_") ||
  names.contains "forearm.L" || names.contains "forearm.R" ||
  names.contains "shin.L" || names.contains "shin.R"

/-- Classification plus static mapping (get_bone_mapping_and_type):
Mixamo if any name carries the "mixamorig:" namespace, else Rigify if any
structural indicator is present, else VRM. -/
def get_bone_mapping_and_type (names : List String) : SkeletonType × List (String × String) :=
  if names.any (fun n => strStarts n "mixamorig:") then (SkeletonType.mixamo, mixamoMapping)
  else if rigifyIndicator names then (SkeletonType.rigify, rigifyMapping)
  else (SkeletonType.vrm, vrmMapping)

/-- Lexicographic comparison of character lists by code point, models
Python string comparison. -/
def lexLe : List Char → List Char → Bool
  | [], _ => true
  | _ :: _, [] => false
  | a :: as, b :: bs =>
    if a.toNat < b.toNat then true
    else if b.toNat < a.toNat then false
    else lexLe as bs

/-- Lexicographic order on strings (Python string order). -/
def strLe (a b : String) : Prop := lexLe a.data b.data = true

instance : DecidableRel strLe := fun _ _ => inferInstanceAs (Decidable (_ = true))

/-- Digits parsed by re.match(r"spine_(\d+)", s): the maximal digit run
after the "spine_" marker, if the marker is present and the run is
non-empty. -/
def spineNumOf (s : String) : Option Nat :=
  if strStarts s "spine_" then
    let ds := (s.data.drop 6).takeWhile isDigitC
    if ds.isEmpty then none else some (digitsToNat ds)
  else none

/-- Dynamic resolver find_chest_spine_number: collect "spine_"-prefixed
names from the mapping's targets and from the rig (except "spine_00"),
sort them (Python sorted, lexicographic), take the last, parse its
number and add one; default "spine_02". -/
def find_chest_spine_number (names : List String) (initial_mapping : List (String × String)) : String :=
  let existing_spines_in_mapping :=
    (initial_mapping.map Prod.snd).filter (fun v => strStarts v "spine_")
  let existing_spines_in_bones :=
    names.filter (fun n => strStarts n "spine_" && n != "spine_00")
  let all_existing_spines := (existing_spines_in_mapping ++ existing_spines_in_bones).dedup
  let existing_spines_list := List.insertionSort strLe all_existing_spines
  match existing_spines_list.getLast? with
  | some last_existing_spine =>
    match spineNumOf last_existing_spine with
    | some last_num => "spine_" ++ pad2 (last_num + 1)
    | none => "spine_02"
  | none => "spine_02"

/-- Source key of Rigify spine segment i ("spine.%03d"). -/
def spineDotName (i : Nat) : String := "spine." ++ pad3 i

/-- Target name of spine segment j ("spine_%02d"). -/
def spineUnderscoreName (j : Nat) : String := "spine_" ++ pad2 j

/-- Aux scan for find_rigify_spine_mapping: from segment i, with the
given number of segments still to examine, as long as consecutive
segments exist. -/
def frsAux (names : List String) : Nat → Nat → List (String × String)
  | _, 0 => []
  | i, fuel + 1 =>
    if names.contains (spineDotName i) then
      (spineDotName i, spineUnderscoreName (i + 1)) :: frsAux names (i + 1) fuel
    else []

/-- Dynamic resolver find_rigify_spine_mapping: scan spine.001 upward
(range(1, 10), i.e. segments 1..9), mapping segment i to spine_(i+1),
stopping at the first gap. -/
def find_rigify_spine_mapping (names : List String) : List (String × String) :=
  frsAux names 1 9

/-- A bone record: a stable identity, the current name, and an optional
parent (by identity).  The host owns the records; the script only reads
names and child lists and issues rename / delete requests. -/
structure Bone where
  id : Nat
  name : String
  parent : Option Nat
deriving DecidableEq, Repr

/-- A rig: the host's ordered collection of bones (insertion order). -/
abbrev Rig := List Bone

/-- The rig's bone names in collection order (edit_bones.keys()). -/
def namesOf (r : Rig) : List String := r.map Bone.name

/-- Membership test "name in edit_bones". -/
def hasName (r : Rig) (n : String) : Bool := r.any (fun b => b.name == n)

/-- The children of a bone: the bones whose parent is its identity. -/
def childrenOf (r : Rig) (b : Bone) : List Bone :=
  r.filter (fun c => c.parent == some b.id)

/-- Modelled from the spec: the host collaborator's rename operation,
which is not part of the script's own sources ("rename a bone by name
(fails/is skipped if the target name already exists)").  Renaming leaves
identity, parent and order untouched. -/
def renameBone (r : Rig) (old new : String) : Rig :=
  if hasName r new then r
  else r.map (fun b => if b.name == old then { b with name := new } else b)

/-- Modelled from the spec: the host collaborator's delete operation
("delete a bone by name (removes it ...)"). -/
def deleteBone (r : Rig) (n : String) : Rig := r.filter (fun b => b.name != n)

/-- One structured diagnostic per print statement of the script. -/
inductive Diag where
  | detectedType (t : SkeletonType)
  | chestTarget (target : String)
  | missingSource (t : SkeletonType) (name : String)
  | renaming (old new : String)
  | standardizing (old new : String)
  | standardizeTargetExists (old new : String)
  | removed (name : String)
deriving DecidableEq, Repr

/-- Classification of a rig. -/
def typeOf (r : Rig) : SkeletonType := (get_bone_mapping_and_type (namesOf r)).1

/-- The static mapping picked by the classification. -/
def initialMappingOf (r : Rig) : List (String × String) :=
  (get_bone_mapping_and_type (namesOf r)).2

/-- The final mapping: the static table extended by the convention's
dynamic resolver.  "chest" is not a VRM table key and the Rigify spine
keys are not Rigify table keys, so the dict updates append fresh keys. -/
def finalMappingOf (r : Rig) : List (String × String) :=
  let names := namesOf r
  let m0 := initialMappingOf r
  match typeOf r with
  | SkeletonType.vrm =>
    if names.contains "chest" then m0 ++ [("chest", find_chest_spine_number names m0)] else m0
  | SkeletonType.rigify => m0 ++ find_rigify_spine_mapping names
  | SkeletonType.mixamo => m0

/-- Scheduled renames: the final-mapping entries whose source name exists
in the rig, in mapping order. -/
def renamePairsOf (r : Rig) : List (String × String) :=
  (finalMappingOf r).filter (fun p => hasName r p.1)

/-- Diagnostics for final-mapping entries whose source name is absent. -/
def missingDiagsOf (r : Rig) : List Diag :=
  (finalMappingOf r).filterMap (fun p =>
    if hasName r p.1 then none else some (Diag.missingSource (typeOf r) p.1))

/-- The rest of a name after the Mixamo hand namespace, when present. -/
def mixamoHandRest (name : String) : Option (List Char) :=
  if strStarts name "mixamorig:LeftHand" then some (name.data.drop 18)
  else if strStarts name "mixamorig:RightHand" then some (name.data.drop 19)
  else none

/-- Position and value of the last digit of a character list. -/
def lastDigitAux : List Char → Nat → Option (Nat × Char) → Option (Nat × Char)
  | [], _, acc => acc
  | c :: rest, i, acc =>
    lastDigitAux rest (i + 1) (if isDigitC c then some (i, c) else acc)

/-- Group 3 of re.match(r"mixamorig:(Left|Right)Hand(\w+)(\d+)", name)
applied after the hand namespace: by greedy matching with backtracking,
(\w+) takes the longest prefix of the maximal word-character run that
still leaves a digit for (\d+), so group 3 is the last digit of that run,
provided some digit occurs past position 0 of the run. -/
def handGroup3 (rest : List Char) : Option Char :=
  let w := rest.takeWhile isWordC
  match lastDigitAux w 0 none with
  | some (i, c) => if 1 ≤ i then some c else none
  | none => none

/-- Does the deletion regex classify this bone name as a fourth-joint
finger bone (match.group(3) == "4")? -/
def isFourthJointName (name : String) : Bool :=
  match mixamoHandRest name with
  | some rest => handGroup3 rest == some '4'
  | none => false

/-- Does the name carry the Mixamo hand namespace? -/
def isMixamoHandName (name : String) : Bool :=
  strStarts name "mixamorig:LeftHand" || strStarts name "mixamorig:RightHand"

/-- Does the name end with the terminal-bone suffix?  endswith("_End")
implies endswith("End"), so the disjunction reduces to the latter. -/
def isEndName (name : String) : Bool := strEnds name "_End" || strEnds name "End"

/-- Scheduled deletions (built only for Mixamo rigs): hand-namespace
bones whose regex joint group is "4", and otherwise terminal-suffix bones
without children. -/
def scheduleDeletes (r : Rig) : List String :=
  r.filterMap (fun b =>
    if isMixamoHandName b.name then
      if isFourthJointName b.name then some b.name else none
    else if isEndName b.name && (childrenOf r b).isEmpty then some b.name
    else none)

/-- The deletion bucket of the pass. -/
def deletesOf (r : Rig) : List String :=
  if typeOf r = SkeletonType.mixamo then scheduleDeletes r else []

/-- The is_mixamo_end test of the standardization loop. -/
def isMixamoEndCheck (name : String) : Bool := isMixamoHandName name || isEndName name

/-- Scheduled normalizer renames: bones not covered by the final mapping
(and, for Mixamo, not matching the end-bone patterns) whose standardized
name differs and does not collide with an existing bone name. -/
def standardizePairsOf (r : Rig) : List (String × String) :=
  let names := namesOf r
  let mappedKeys := (finalMappingOf r).map Prod.fst
  names.filterMap (fun n =>
    if mappedKeys.contains n then none
    else if typeOf r = SkeletonType.mixamo && isMixamoEndCheck n then none
    else
      let s := standardize_bone_name n
      if s != n && !(names.contains s) then some (n, s) else none)

/-- One step of the rename-application loop: guarded by a fresh
existence check of the source name; the host skips if the target exists. -/
def applyRenameStep (r : Rig) (p : String × String) : Rig :=
  if hasName r p.1 then renameBone r p.1 p.2 else r

/-- One step of the standardize-application loop: applied only when the
source still exists and the target still does not. -/
def applyStandardizeStep (r : Rig) (p : String × String) : Rig :=
  if hasName r p.1 && !(hasName r p.2) then renameBone r p.1 p.2 else r

/-- One step of the deletion loop, guarded by a fresh existence check. -/
def applyDeleteStep (r : Rig) (n : String) : Rig :=
  if hasName r n then deleteBone r n else r

/-- The rig after applying all scheduled renames, then all scheduled
normalizer renames, then all scheduled deletions, in that order. -/
def applyAll (r : Rig) : Rig :=
  (deletesOf r).foldl applyDeleteStep
    ((standardizePairsOf r).foldl applyStandardizeStep
      ((renamePairsOf r).foldl applyRenameStep r))

/-- Diagnostics of the rename loop (a rename is announced whenever the
source name still exists; the host's silent skip on target collision
produces no diagnostic of its own). -/
def renameDiags : Rig → List (String × String) → List Diag
  | _, [] => []
  | r, p :: ps =>
    if hasName r p.1 then Diag.renaming p.1 p.2 :: renameDiags (applyRenameStep r p) ps
    else renameDiags r ps

/-- Diagnostics of the standardize loop: an announcement when applied, a
warning when the target name already exists. -/
def standardizeDiags : Rig → List (String × String) → List Diag
  | _, [] => []
  | r, p :: ps =>
    if hasName r p.1 && !(hasName r p.2) then
      Diag.standardizing p.1 p.2 :: standardizeDiags (applyStandardizeStep r p) ps
    else if hasName r p.2 then
      Diag.standardizeTargetExists p.1 p.2 :: standardizeDiags (applyStandardizeStep r p) ps
    else standardizeDiags r ps

/-- Diagnostics of the deletion loop. -/
def deleteDiags : Rig → List String → List Diag
  | _, [] => []
  | r, n :: ns =>
    if hasName r n then Diag.removed n :: deleteDiags (applyDeleteStep r n) ns
    else deleteDiags r ns

/-- The chest-resolver diagnostic, emitted for VRM rigs with a chest. -/
def chestDiagOf (r : Rig) : List Diag :=
  if typeOf r = SkeletonType.vrm ∧ (namesOf r).contains "chest" then
    [Diag.chestTarget (find_chest_spine_number (namesOf r) (initialMappingOf r))]
  else []

/-- The core pass of rename_armature_to_ue_standard_and_remove_mixamo_ends:
classify, build the final mapping, partition into rename / delete /
standardize buckets, apply renames then standardizations then deletions.
Returns the final rig and the emitted diagnostics in order. -/
def rename_armature_to_ue_standard_and_remove_mixamo_ends (r : Rig) : Rig × List Diag :=
  let r1 := (renamePairsOf r).foldl applyRenameStep r
  let r2 := (standardizePairsOf r).foldl applyStandardizeStep r1
  (applyAll r,
    [Diag.detectedType (typeOf r)] ++ chestDiagOf r ++ missingDiagsOf r ++
      renameDiags r (renamePairsOf r) ++ standardizeDiags r1 (standardizePairsOf r) ++
      deleteDiags r2 (deletesOf r))

/-- Short name for the pass. -/
def runPass (r : Rig) : Rig × List Diag :=
  rename_armature_to_ue_standard_and_remove_mixamo_ends r

/-- Does the two-character pattern a b occur anywhere in the list? -/
def hasPair (a b : Char) : List Char → Bool
  | c :: d :: rest => (c == a && d == b) || hasPair a b (d :: rest)
  | _ => false

/-- No two consecutive underscores. -/
def noDoubleU : List Char → Bool
  | c :: d :: rest => !(c == '_' && d == '_') && noDoubleU (d :: rest)
  | _ => true

/-- No '.' immediately followed by a digit. -/
def noDotD : List Char → Bool
  | c :: d :: rest => !(c == '.' && isDigitC d) && noDotD (d :: rest)
  | _ => true

/-- The lexicographically larger of two strings. -/
def maxS (a b : String) : String := if lexLe a.data b.data then b else a

/-- The lexicographic maximum of a list of strings, as a fold. -/
def lexMaxOf : List String → Option String
  | [] => none
  | a :: t => some (t.foldl maxS a)

/-- The chest resolver restated with an explicit maximum fold in place of
sort-then-take-last: the collected "spine_"-names' lexicographic maximum
is parsed and incremented. -/
def find_chest_spine_number_by_max (names : List String) (initial_mapping : List (String × String)) : String :=
  let existing_spines_in_mapping :=
    (initial_mapping.map Prod.snd).filter (fun v => strStarts v "spine_")
  let existing_spines_in_bones :=
    names.filter (fun n => strStarts n "spine_" && n != "spine_00")
  let all_existing_spines := (existing_spines_in_mapping ++ existing_spines_in_bones).dedup
  match lexMaxOf all_existing_spines with
  | some last_existing_spine =>
    match spineNumOf last_existing_spine with
    | some last_num => "spine_" ++ pad2 (last_num + 1)
    | none => "spine_02"
  | none => "spine_02"

/-- The pass only renames and deletes: every bone of the output rig is an
input bone with the same identity and parent (possibly renamed). -/
def structPreserved (r rOut : Rig) : Prop :=
  ∀ b2 ∈ rOut, ∃ b ∈ r, b2.id = b.id ∧ b2.parent = b.parent

/-- The Rigify structural indicators, as a proposition. -/
def rigifyIndicatorP (names : List String) : Prop :=
  (∃ n ∈ names, strStarts n "spine." = true ∧ n ≠ "spine") ∨
  (∃ n ∈ names, strStarts n "palm." = true) ∨
  (∃ n ∈ names, strStarts n "f_" = true) ∨
  "forearm.L" ∈ names ∨ "forearm.R" ∈ names ∨ "shin.L" ∈ names ∨ "shin.R" ∈ names

instance (names : List String) : Decidable (rigifyIndicatorP names) := by
  unfold rigifyIndicatorP
  exact inferInstance

/-! ### Concrete rigs used by the claim theorems -/

/-- The scenario A rig: unprefixed trunk and arm bones next to
namespace-prefixed thumb bones. -/
def scenarioARig : Rig :=
  [⟨0, "Hips", none⟩, ⟨1, "Spine", some 0⟩, ⟨2, "LeftArm", some 1⟩,
   ⟨3, "LeftForeArm", some 2⟩, ⟨4, "LeftHand", some 3⟩,
   ⟨5, "mixamorig:LeftHandThumb1", some 4⟩, ⟨6, "mixamorig:LeftHandThumb2", some 5⟩,
   ⟨7, "mixamorig:LeftHandThumb3", some 6⟩, ⟨8, "mixamorig:LeftHandThumb4", some 7⟩]

/-- The rig exhibiting the lexicographic-versus-numeric discrepancy. -/
def chestLexRig : Rig := [⟨0, "chest", none⟩, ⟨1, "spine_9", none⟩, ⟨2, "spine_10", none⟩]

/-- Ten consecutive spine segments. -/
def tenSpines : List String :=
  ["spine.001", "spine.002", "spine.003", "spine.004", "spine.005",
   "spine.006", "spine.007", "spine.008", "spine.009", "spine.010"]

/-- The rig on which a mapped rename collides with an existing bone. -/
def mappedCollisionRig : Rig := [⟨0, "mixamorig:Hips", none⟩, ⟨1, "pelvis", none⟩]

/-- The rig on which a non-leaf fourth-joint bone is deleted. -/
def fourthJointRig : Rig :=
  [⟨0, "mixamorig:x", none⟩, ⟨1, "mixamorig:LeftHandThumb4", none⟩, ⟨2, "child", some 1⟩]

/-- The scenario B rig: "spine_01" pre-exists as an unrelated bone. -/
def scenarioBRig : Rig :=
  [⟨0, "hips", none⟩, ⟨1, "spine", some 0⟩, ⟨2, "chest", some 1⟩, ⟨3, "spine_01", none⟩]

/-! ### Basic bridging lemmas -/

lemma mem_namesOf {r : Rig} {n : String} : n ∈ namesOf r ↔ ∃ b ∈ r, b.name = n := by
  simp [namesOf, List.mem_map]

lemma hasName_iff {r : Rig} {n : String} : hasName r n = true ↔ n ∈ namesOf r := by
  simp [hasName, namesOf, List.any_eq_true, List.mem_map]

lemma hasName_false_iff {r : Rig} {n : String} : hasName r n = false ↔ n ∉ namesOf r := by
  rw [← hasName_iff]
  simp

lemma rigifyIndicator_iff {names : List String} :
    rigifyIndicator names = true ↔ rigifyIndicatorP names := by
  simp [rigifyIndicator, rigifyIndicatorP, List.any_eq_true, or_assoc]


/-! ### Claim C2: the classifier -/

/-- C2: classification by precedence with first match winning: MotionCapture
(Mixamo) whenever any bone name carries the "mixamorig:" namespace;
otherwise AutoRig (Rigify) whenever any structural indicator is present
(segmented spine, palm, f-prefixed finger, forearm or shin side bone);
otherwise AvatarStandard (VRM). -/
theorem c2_classifier_precedence (names : List String) :
    ((∃ n ∈ names, strStarts n "mixamorig:" = true) →
      (get_bone_mapping_and_type names).1 = SkeletonType.mixamo)
    ∧ ((¬ ∃ n ∈ names, strStarts n "mixamorig:" = true) →
        ((rigifyIndicatorP names → (get_bone_mapping_and_type names).1 = SkeletonType.rigify)
         ∧ (¬ rigifyIndicatorP names → (get_bone_mapping_and_type names).1 = SkeletonType.vrm))) := by
  unfold get_bone_mapping_and_type
  refine ⟨fun h => ?_, fun h => ⟨fun hr => ?_, fun hr => ?_⟩⟩
  · rw [if_pos (List.any_eq_true.mpr h)]
  · have hm : ¬ names.any (fun n => strStarts n "mixamorig:") = true := fun hc =>
      h (List.any_eq_true.mp hc)
    rw [if_neg hm, if_pos (rigifyIndicator_iff.mpr hr)]
  · have hm : ¬ names.any (fun n => strStarts n "mixamorig:") = true := fun hc =>
      h (List.any_eq_true.mp hc)
    rw [if_neg hm, if_neg (fun hc => hr (rigifyIndicator_iff.mp hc))]

/-- Witness for C2 at concrete rigs, one per branch. -/
theorem c2_classifier_precedence_witness :
    (get_bone_mapping_and_type ["mixamorig:Hips"]).1 = SkeletonType.mixamo
    ∧ (get_bone_mapping_and_type ["shin.L"]).1 = SkeletonType.rigify
    ∧ (get_bone_mapping_and_type ["hips"]).1 = SkeletonType.vrm :=
  ⟨(c2_classifier_precedence ["mixamorig:Hips"]).1 (by decide),
   ((c2_classifier_precedence ["shin.L"]).2 (by decide)).1 (by decide),
   ((c2_classifier_precedence ["hips"]).2 (by decide)).2 (by decide)⟩

/-! ### Claim C3: scenario A -/


/-- C3 counterexample: on the scenario A rig the claim's rename
"Hips" -> "pelvis" does not happen; no bone is named "pelvis" afterwards,
and the bone with identity 0 ends up named "hips" (normalizer lowering),
because "Hips" without the namespace is not a key of the Mixamo mapping. -/
theorem c3_scenarioA_counterexample :
    hasName (runPass scenarioARig).1 "pelvis" = false
    ∧ (⟨0, "hips", none⟩ : Bone) ∈ (runPass scenarioARig).1 := by decide

/-- C3 amended: the rig is classified Mixamo; the prefixed thumb joints
1..3 are renamed to thumb_01_l..thumb_03_l and the fourth thumb joint is
deleted, exactly as the claim states; but the unprefixed bones "Hips",
"Spine", "LeftArm", "LeftForeArm", "LeftHand" are not in the Mixamo
mapping (its keys carry the "mixamorig:" namespace) and are instead
lower-cased by the fallback normalizer. -/
theorem c3_scenarioA_amended :
    typeOf scenarioARig = SkeletonType.mixamo
    ∧ namesOf (runPass scenarioARig).1 =
      ["hips", "spine", "leftarm", "leftforearm", "lefthand",
       "thumb_01_l", "thumb_02_l", "thumb_03_l"]
    ∧ hasName (runPass scenarioARig).1 "mixamorig:LeftHandThumb4" = false := by decide

/-! ### Claim C7: scenario D -/

/-- C7 counterexample: the normalizer does not produce "prop_2" from
"Prop.002". -/
theorem c7_prop002_counterexample : standardize_bone_name "Prop.002" ≠ "prop_2" := by decide

/-- C7 amended: the dot-digit infix keeps its digits verbatim, so
"Prop.002" normalizes to "prop_002". -/
theorem c7_prop002_amended : standardize_bone_name "Prop.002" = "prop_002" := by decide

/-! ### Claim C8: the pass is not idempotent-after-convergence -/

/-- C8 counterexample: on the rig whose sole bone is "Spine", the first
pass normalizes the name to "spine"; on the second pass "spine" is a key
of the static VRM table, so the second pass performs a mapping-driven
rename (the bucket of mapped renames, not the normalizer bucket, which is
empty) that changes the name to "spine_01". -/
theorem c8_second_pass_counterexample :
    (runPass [⟨0, "Spine", none⟩]).1 = [⟨0, "spine", none⟩]
    ∧ ("spine", "spine_01") ∈ renamePairsOf [⟨0, "spine", none⟩]
    ∧ standardizePairsOf [⟨0, "spine", none⟩] = []
    ∧ namesOf (runPass [⟨0, "spine", none⟩]).1 = ["spine_01"] := by decide

/-- C8 amended: running the pass twice can produce further renames on the
second pass beyond normalizer-driven ones: a first-pass normalization can
land on a static mapping key which the second pass then maps.  For the
sole bone "Spine": first pass yields "spine", second pass yields
"spine_01". -/
theorem c8_two_passes :
    namesOf (runPass [⟨0, "Spine", none⟩]).1 = ["spine"]
    ∧ namesOf (runPass (runPass [⟨0, "Spine", none⟩]).1).1 = ["spine_01"] := by decide

/-! ### Claim C5 counterexample -/


/-- C5 counterexample: with existing spine names "spine_9" and "spine_10"
the highest spine-segment number present is 10, so the claim demands the
chest target "spine_11"; the code sorts the names as strings, picks
"spine_9" as the last (lexicographically greatest), and computes
"spine_10" — a name that already exists in the rig. -/
theorem c5_chest_counterexample :
    typeOf chestLexRig = SkeletonType.vrm
    ∧ ("chest", "spine_10") ∈ finalMappingOf chestLexRig
    ∧ ¬ ("chest", "spine_11") ∈ finalMappingOf chestLexRig
    ∧ find_chest_spine_number (namesOf chestLexRig) (initialMappingOf chestLexRig) ≠ "spine_11" := by
  decide

/-! ### Claim C6 counterexample -/


/-- C6 counterexample: with ten consecutive segments present the claim
demands that segment 10 be mapped to segment 11; the scan stops after
segment 9, so "spine.010" is absent from the resolver's mapping. -/
theorem c6_ten_segments_counterexample :
    (∀ j, j ≤ 10 → 1 ≤ j → tenSpines.contains (spineDotName j) = true)
    ∧ ∀ p ∈ find_rigify_spine_mapping tenSpines, p.1 ≠ "spine.010" := by
  constructor
  · decide
  · decide

/-! ### Claim C1: no rename overwrites an existing bone -/

lemma namesOf_renameBone (r : Rig) (o t : String) :
    namesOf (renameBone r o t) =
      if hasName r t then namesOf r
      else (namesOf r).map (fun n => if n = o then t else n) := by
  unfold renameBone
  split
  · rfl
  · simp only [namesOf, List.map_map]
    apply List.map_congr_left
    intro b _
    by_cases hb : b.name = o <;> simp [Function.comp, hb]

lemma nodup_namesOf_renameBone (r : Rig) (o t : String)
    (h : (namesOf r).Nodup) : (namesOf (renameBone r o t)).Nodup := by
  rw [namesOf_renameBone]
  split
  · exact h
  · rename_i hc
    have ht : t ∉ namesOf r := by
      rw [← hasName_iff]
      simpa using hc
    refine h.map_on ?_
    intro x hx y hy hxy
    by_cases hx0 : x = o <;> by_cases hy0 : y = o <;> simp [hx0, hy0] at hxy
    · rw [hx0, hy0]
    · exact absurd (hxy.symm ▸ hy) ht
    · exact absurd (hxy ▸ hx) ht
    · exact hxy

lemma namesOf_filter_sublist (r : Rig) (p : Bone → Bool) :
    (namesOf (r.filter p)).Sublist (namesOf r) :=
  List.Sublist.map _ (List.filter_sublist r)

lemma nodup_namesOf_deleteBone (r : Rig) (n : String)
    (h : (namesOf r).Nodup) : (namesOf (deleteBone r n)).Nodup :=
  (namesOf_filter_sublist r _).nodup h

lemma nodup_applyRenameStep (r : Rig) (p : String × String)
    (h : (namesOf r).Nodup) : (namesOf (applyRenameStep r p)).Nodup := by
  unfold applyRenameStep
  split
  · exact nodup_namesOf_renameBone r p.1 p.2 h
  · exact h

lemma nodup_applyStandardizeStep (r : Rig) (p : String × String)
    (h : (namesOf r).Nodup) : (namesOf (applyStandardizeStep r p)).Nodup := by
  unfold applyStandardizeStep
  split
  · exact nodup_namesOf_renameBone r p.1 p.2 h
  · exact h

lemma nodup_applyDeleteStep (r : Rig) (n : String)
    (h : (namesOf r).Nodup) : (namesOf (applyDeleteStep r n)).Nodup := by
  unfold applyDeleteStep
  split
  · exact nodup_namesOf_deleteBone r n h
  · exact h

lemma foldl_preserves {α : Type} (step : Rig → α → Rig) (P : Rig → Prop)
    (hstep : ∀ r x, P r → P (step r x)) :
    ∀ (l : List α) (r : Rig), P r → P (l.foldl step r) := by
  intro l
  induction l with
  | nil => intro r h; exact h
  | cons x xs ih =>
    intro r h
    exact ih (step r x) (hstep r x h)

/-- C1 amended: a scheduled rename whose target name already exists in
the rig at apply time does not take place (the host's rename operation
skips on collision, as the spec's interface contract states); the
normalizer bucket checks the collision itself and emits a diagnostic,
while the mapped bucket performs no such check and emits no skip
diagnostic.  Consequently no bone is overwritten: for every rig whose
bone names are initially pairwise distinct, all bone names in the final
rig state are pairwise distinct. -/
theorem c1_names_stay_distinct (r : Rig)
    (h : (namesOf r).Nodup) : (namesOf (runPass r).1).Nodup := by
  show (namesOf (applyAll r)).Nodup
  unfold applyAll
  exact foldl_preserves applyDeleteStep _ nodup_applyDeleteStep _ _
    (foldl_preserves applyStandardizeStep _ nodup_applyStandardizeStep _ _
      (foldl_preserves applyRenameStep _ nodup_applyRenameStep _ _ h))

/-- Witness for C1 on a concrete rig with distinct names. -/
theorem c1_names_stay_distinct_witness :
    (namesOf scenarioARig).Nodup ∧ (namesOf (runPass scenarioARig).1).Nodup :=
  ⟨by decide, c1_names_stay_distinct scenarioARig (by decide)⟩


/-- C1 counterexample: the mapped rename "mixamorig:Hips" -> "pelvis" is
scheduled while a bone named "pelvis" already exists at apply time; the
rename does not happen (the rig is unchanged), but no skip diagnostic is
emitted — the only collision diagnostic the script has belongs to the
normalizer bucket, and the rename loop even announces the rename it then
does not perform.  This falsifies "the rename is skipped with a
diagnostic" for mapped renames. -/
theorem c1_silent_skip_counterexample :
    ("mixamorig:Hips", "pelvis") ∈ renamePairsOf mappedCollisionRig
    ∧ hasName mappedCollisionRig "pelvis" = true
    ∧ (runPass mappedCollisionRig).1 = mappedCollisionRig
    ∧ (runPass mappedCollisionRig).2.all
        (fun d => match d with | Diag.standardizeTargetExists _ _ => false | _ => true) = true
    ∧ Diag.renaming "mixamorig:Hips" "pelvis" ∈ (runPass mappedCollisionRig).2 := by
  decide

/-! ### Claim C4: deletions -/

lemma structPreserved_refl (r : Rig) : structPreserved r r :=
  fun b2 hb2 => ⟨b2, hb2, rfl, rfl⟩

lemma structPreserved_trans {r1 r2 r3 : Rig}
    (h12 : structPreserved r1 r2) (h23 : structPreserved r2 r3) :
    structPreserved r1 r3 := by
  intro b3 hb3
  obtain ⟨b2, hb2, hid23, hp23⟩ := h23 b3 hb3
  obtain ⟨b1, hb1, hid12, hp12⟩ := h12 b2 hb2
  exact ⟨b1, hb1, hid23.trans hid12, hp23.trans hp12⟩

lemma structPreserved_renameBone (r : Rig) (o t : String) :
    structPreserved r (renameBone r o t) := by
  unfold renameBone
  split
  · exact structPreserved_refl r
  · intro b2 hb2
    rw [List.mem_map] at hb2
    obtain ⟨b, hb, hbe⟩ := hb2
    refine ⟨b, hb, ?_, ?_⟩ <;> rw [← hbe] <;> by_cases hbo : (b.name == o) = true <;> simp [hbo]

lemma structPreserved_deleteBone (r : Rig) (n : String) :
    structPreserved r (deleteBone r n) := by
  intro b2 hb2
  exact ⟨b2, List.mem_of_mem_filter hb2, rfl, rfl⟩

lemma structPreserved_applyRenameStep (r : Rig) (p : String × String) :
    structPreserved r (applyRenameStep r p) := by
  unfold applyRenameStep
  split
  · exact structPreserved_renameBone r p.1 p.2
  · exact structPreserved_refl r

lemma structPreserved_applyStandardizeStep (r : Rig) (p : String × String) :
    structPreserved r (applyStandardizeStep r p) := by
  unfold applyStandardizeStep
  split
  · exact structPreserved_renameBone r p.1 p.2
  · exact structPreserved_refl r

lemma structPreserved_applyDeleteStep (r : Rig) (n : String) :
    structPreserved r (applyDeleteStep r n) := by
  unfold applyDeleteStep
  split
  · exact structPreserved_deleteBone r n
  · exact structPreserved_refl r

lemma length_renameBone (r : Rig) (o t : String) :
    (renameBone r o t).length = r.length := by
  unfold renameBone
  split
  · rfl
  · exact List.length_map r _

lemma length_applyRenameStep (r : Rig) (p : String × String) :
    (applyRenameStep r p).length = r.length := by
  unfold applyRenameStep
  split
  · exact length_renameBone r p.1 p.2
  · rfl

lemma length_applyStandardizeStep (r : Rig) (p : String × String) :
    (applyStandardizeStep r p).length = r.length := by
  unfold applyStandardizeStep
  split
  · exact length_renameBone r p.1 p.2
  · rfl

lemma mem_scheduleDeletes {r : Rig} {n : String} :
    n ∈ scheduleDeletes r ↔
      ∃ b ∈ r, b.name = n ∧
        ((isMixamoHandName n = true ∧ isFourthJointName n = true)
         ∨ (isMixamoHandName n = false ∧ isEndName n = true ∧ (childrenOf r b).isEmpty = true)) := by
  unfold scheduleDeletes
  rw [List.mem_filterMap]
  constructor
  · rintro ⟨b, hb, hf⟩
    by_cases h1 : isMixamoHandName b.name = true
    · by_cases h2 : isFourthJointName b.name = true
      · rw [if_pos h1, if_pos h2] at hf
        obtain rfl : b.name = n := Option.some.inj hf
        exact ⟨b, hb, rfl, Or.inl ⟨h1, h2⟩⟩
      · rw [if_pos h1, if_neg h2] at hf
        cases hf
    · by_cases h3 : (isEndName b.name && (childrenOf r b).isEmpty) = true
      · rw [if_neg h1, if_pos h3] at hf
        obtain rfl : b.name = n := Option.some.inj hf
        rw [Bool.and_eq_true] at h3
        exact ⟨b, hb, rfl, Or.inr ⟨Bool.eq_false_iff.mpr h1, h3.1, h3.2⟩⟩
      · rw [if_neg h1, if_neg h3] at hf
        cases hf
  · rintro ⟨b, hb, rfl, hcase⟩
    refine ⟨b, hb, ?_⟩
    rcases hcase with ⟨h1, h2⟩ | ⟨h1, h2, h3⟩
    · rw [if_pos h1, if_pos h2]
    · rw [if_neg (by rw [h1]; exact Bool.false_ne_true), if_pos (by rw [h2, h3]; rfl)]

/-- C4 amended: deletions are scheduled only for MotionCapture-classified
rigs, and the scheduled deletions are exactly (a) the hand-namespace
bones matched by the finger-joint pattern with final joint digit 4 —
whether or not they have children — and (b) the remaining bones whose
names end with the terminal suffix and that have no children.  Under
every other classification the pass deletes nothing (the bone count is
unchanged), and in all cases nothing other than names and these deletions
is altered: every output bone is an input bone with the same identity and
the same parent. -/
theorem c4_deletions (r : Rig) :
    (∀ n, n ∈ deletesOf r ↔
      (typeOf r = SkeletonType.mixamo ∧
        ∃ b ∈ r, b.name = n ∧
          ((isMixamoHandName n = true ∧ isFourthJointName n = true)
           ∨ (isMixamoHandName n = false ∧ isEndName n = true ∧ (childrenOf r b).isEmpty = true))))
    ∧ (typeOf r ≠ SkeletonType.mixamo → (runPass r).1.length = r.length)
    ∧ structPreserved r (runPass r).1 := by
  refine ⟨?_, ?_, ?_⟩
  · intro n
    unfold deletesOf
    split
    · rename_i ht
      simp only [ht, true_and]
      exact mem_scheduleDeletes
    · rename_i ht
      simp only [List.not_mem_nil, false_iff]
      rintro ⟨h, -⟩
      exact ht h
  · intro ht
    show (applyAll r).length = r.length
    unfold applyAll
    have hd : deletesOf r = [] := by
      unfold deletesOf
      rw [if_neg ht]
    rw [hd]
    simp only [List.foldl_nil]
    have h1 : ∀ (l : List (String × String)) (r0 : Rig),
        (l.foldl applyRenameStep r0).length = r0.length := by
      intro l
      induction l with
      | nil => intro r0; rfl
      | cons x xs ih =>
        intro r0
        rw [List.foldl_cons, ih, length_applyRenameStep]
    have h2 : ∀ (l : List (String × String)) (r0 : Rig),
        (l.foldl applyStandardizeStep r0).length = r0.length := by
      intro l
      induction l with
      | nil => intro r0; rfl
      | cons x xs ih =>
        intro r0
        rw [List.foldl_cons, ih, length_applyStandardizeStep]
    rw [h2, h1]
  · show structPreserved r (applyAll r)
    unfold applyAll
    have gen : ∀ {α : Type} (step : Rig → α → Rig)
        (hs : ∀ r0 x, structPreserved r0 (step r0 x)) (l : List α) (r0 : Rig),
        structPreserved r0 (l.foldl step r0) := by
      intro α step hs l
      induction l with
      | nil => intro r0; exact structPreserved_refl r0
      | cons x xs ih =>
        intro r0
        exact structPreserved_trans (hs r0 x) (ih (step r0 x))
    exact structPreserved_trans
      (structPreserved_trans
        (gen applyRenameStep structPreserved_applyRenameStep _ r)
        (gen applyStandardizeStep structPreserved_applyStandardizeStep _ _))
      (gen applyDeleteStep structPreserved_applyDeleteStep _ _)

/-- Witness for C4 on concrete rigs of each classification. -/
theorem c4_deletions_witness :
    ("mixamorig:LeftHandThumb4" ∈
      deletesOf [⟨0, "mixamorig:x", none⟩, ⟨1, "mixamorig:LeftHandThumb4", none⟩, ⟨2, "child", some 1⟩])
    ∧ (runPass [⟨0, "Custom", none⟩]).1.length = [(⟨0, "Custom", none⟩ : Bone)].length :=
  ⟨((c4_deletions _).1 "mixamorig:LeftHandThumb4").mpr
      ⟨by decide, ⟨1, "mixamorig:LeftHandThumb4", none⟩, by decide, by decide,
        Or.inl (by decide)⟩,
    (c4_deletions _).2.1 (by decide)⟩


/-- C4 counterexample: "mixamorig:LeftHandThumb4" has a child, yet it is
scheduled for deletion (the fourth-joint branch never inspects children)
and is indeed removed by the pass — falsifying "every deleted bone is a
leaf". -/
theorem c4_nonleaf_deleted_counterexample :
    "mixamorig:LeftHandThumb4" ∈ deletesOf fourthJointRig
    ∧ (childrenOf fourthJointRig ⟨1, "mixamorig:LeftHandThumb4", none⟩).isEmpty = false
    ∧ hasName (runPass fourthJointRig).1 "mixamorig:LeftHandThumb4" = false
    ∧ (⟨2, "child", some 1⟩ : Bone) ∈ (runPass fourthJointRig).1 := by
  decide

/-! ### Claim C6: the Rigify spine scan -/

lemma frsAux_mem (names : List String) :
    ∀ (fuel start : Nat) (p : String × String),
      p ∈ frsAux names start fuel ↔
        ∃ i, start ≤ i ∧ i < start + fuel ∧
          p = (spineDotName i, spineUnderscoreName (i + 1)) ∧
          ∀ j, start ≤ j → j ≤ i → names.contains (spineDotName j) = true := by
  intro fuel
  induction fuel with
  | zero =>
    intro start p
    simp only [frsAux, List.not_mem_nil, false_iff]
    rintro ⟨i, h1, h2, -, -⟩
    omega
  | succ fuel ih =>
    intro start p
    show p ∈ (if names.contains (spineDotName start) then _ else []) ↔ _
    split
    · rename_i hc
      rw [List.mem_cons]
      constructor
      · rintro (rfl | htail)
        · refine ⟨start, le_refl start, by omega, rfl, ?_⟩
          intro j hj1 hj2
          have : j = start := by omega
          rw [this]
          exact hc
        · obtain ⟨i, h1, h2, h3, h4⟩ := (ih (start + 1) p).mp htail
          refine ⟨i, by omega, by omega, h3, ?_⟩
          intro j hj1 hj2
          by_cases hjs : j = start
          · rw [hjs]; exact hc
          · exact h4 j (by omega) hj2
      · rintro ⟨i, h1, h2, h3, h4⟩
        by_cases his : i = start
        · left
          rw [h3, his]
        · right
          refine (ih (start + 1) p).mpr ⟨i, by omega, by omega, h3, ?_⟩
          intro j hj1 hj2
          exact h4 j (by omega) hj2
    · rename_i hc
      simp only [List.not_mem_nil, false_iff]
      rintro ⟨i, h1, -, -, h4⟩
      exact hc (h4 start (le_refl start) h1)

/-- C6 amended: the Rigify spine resolver maps segment i to segment i+1
for every i in the unbroken consecutive run starting at segment 1 — but
only up to segment 9, where the scan ends (range(1, 10)); its entries are
exactly those, and in particular "spine.001" maps to "spine_02" and
"spine.002" to "spine_03". -/
theorem c6_spine_scan (names : List String) :
    (∀ i, i ≤ 9 → 1 ≤ i →
      (∀ j, j ≤ i → 1 ≤ j → names.contains (spineDotName j) = true) →
      (spineDotName i, spineUnderscoreName (i + 1)) ∈ find_rigify_spine_mapping names)
    ∧ (∀ p ∈ find_rigify_spine_mapping names, ∃ i, 1 ≤ i ∧ i ≤ 9 ∧
        p = (spineDotName i, spineUnderscoreName (i + 1)) ∧
        ∀ j, j ≤ i → 1 ≤ j → names.contains (spineDotName j) = true)
    ∧ find_rigify_spine_mapping ["spine", "spine.001", "spine.002", "forearm.L", "shin.L"] =
        [("spine.001", "spine_02"), ("spine.002", "spine_03")] := by
  refine ⟨?_, ?_, by decide⟩
  · intro i h9 h1 hrun
    exact (frsAux_mem names 9 1 _).mpr
      ⟨i, h1, by omega, rfl, fun j hj1 hj2 => hrun j hj2 hj1⟩
  · intro p hp
    obtain ⟨i, h1, h2, h3, h4⟩ := (frsAux_mem names 9 1 p).mp hp
    exact ⟨i, h1, by omega, h3, fun j hj1 hj2 => h4 j hj2 hj1⟩

/-- Witness for C6 at the scenario C rig. -/
theorem c6_spine_scan_witness :
    ("spine.001", "spine_02") ∈
      find_rigify_spine_mapping ["spine", "spine.001", "spine.002", "forearm.L", "shin.L"] := by
  have h := (c6_spine_scan ["spine", "spine.001", "spine.002", "forearm.L", "shin.L"]).1
    1 (by decide) (by decide) (by decide)
  exact h

/-! ### Claim C5: the chest resolver takes the lexicographic maximum -/

lemma char_toNat_inj {a b : Char} (h : a.toNat = b.toNat) : a = b :=
  Char.ext (UInt32.ext h)

lemma lexLe_cons (x y : Char) (xs ys : List Char) :
    lexLe (x :: xs) (y :: ys) =
      if x.toNat < y.toNat then true
      else if y.toNat < x.toNat then false
      else lexLe xs ys := rfl

lemma lexLe_refl : ∀ l : List Char, lexLe l l = true := by
  intro l
  induction l with
  | nil => rfl
  | cons x xs ih =>
    rw [lexLe_cons, if_neg (lt_irrefl _), if_neg (lt_irrefl _)]
    exact ih

lemma lexLe_total : ∀ a b : List Char, lexLe a b = true ∨ lexLe b a = true := by
  intro a
  induction a with
  | nil => intro b; left; rfl
  | cons x xs ih =>
    intro b
    cases b with
    | nil => right; rfl
    | cons y ys =>
      rw [lexLe_cons, lexLe_cons]
      by_cases h1 : x.toNat < y.toNat
      · left; rw [if_pos h1]
      · by_cases h2 : y.toNat < x.toNat
        · right; rw [if_pos h2]
        · rw [if_neg h1, if_neg h2, if_neg h2, if_neg h1]
          exact ih ys

lemma lexLe_trans : ∀ a b c : List Char, lexLe a b = true → lexLe b c = true → lexLe a c = true := by
  intro a
  induction a with
  | nil => intro b c _ _; rfl
  | cons x xs ih =>
    intro b c hab hbc
    cases b with
    | nil => exact absurd hab (by simp [lexLe])
    | cons y ys =>
      cases c with
      | nil => exact absurd hbc (by simp [lexLe])
      | cons z zs =>
        rw [lexLe_cons] at hab hbc ⊢
        split_ifs at hab hbc ⊢ <;>
          first
            | rfl
            | omega
            | exact ih ys zs hab hbc

lemma lexLe_antisymm : ∀ a b : List Char, lexLe a b = true → lexLe b a = true → a = b := by
  intro a
  induction a with
  | nil =>
    intro b _ hba
    cases b with
    | nil => rfl
    | cons y ys => exact absurd hba (by simp [lexLe])
  | cons x xs ih =>
    intro b hab hba
    cases b with
    | nil => exact absurd hab (by simp [lexLe])
    | cons y ys =>
      rw [lexLe_cons] at hab hba
      split_ifs at hab hba <;>
        first
          | omega
          | (have hxy : x = y := char_toNat_inj (by omega)
             rw [hxy, ih ys hab hba])

lemma string_data_inj {a b : String} (h : a.data = b.data) : a = b :=
  congrArg String.mk h

instance : IsTotal String strLe := ⟨fun a b => lexLe_total a.data b.data⟩

instance : IsTrans String strLe :=
  ⟨fun a b c hab hbc => lexLe_trans a.data b.data c.data hab hbc⟩

lemma strLe_refl (a : String) : strLe a a := lexLe_refl a.data

lemma strLe_antisymm {a b : String} (hab : strLe a b) (hba : strLe b a) : a = b :=
  string_data_inj (lexLe_antisymm a.data b.data hab hba)

lemma strLe_maxS_left (a b : String) : strLe a (maxS a b) := by
  unfold maxS
  split
  · assumption
  · exact strLe_refl a

lemma strLe_maxS_right (a b : String) : strLe b (maxS a b) := by
  unfold maxS
  split
  · exact strLe_refl b
  · rename_i h
    rcases lexLe_total a.data b.data with h1 | h1
    · exact absurd h1 h
    · exact h1

lemma maxS_mem (a b : String) : maxS a b = a ∨ maxS a b = b := by
  unfold maxS
  split
  · right; rfl
  · left; rfl

lemma strLe_trans {a b c : String} (hab : strLe a b) (hbc : strLe b c) : strLe a c :=
  lexLe_trans a.data b.data c.data hab hbc

lemma foldMax_mem (t : List String) : ∀ a, t.foldl maxS a ∈ a :: t := by
  induction t with
  | nil => intro a; exact List.mem_singleton.mpr rfl
  | cons b t' ih =>
    intro a
    rw [List.foldl_cons]
    rcases List.mem_cons.mp (ih (maxS a b)) with h1 | h1
    · rcases maxS_mem a b with h2 | h2
      · rw [h1, h2]
        exact List.mem_cons_self a _
      · rw [h1, h2]
        exact List.mem_cons_of_mem a (List.mem_cons_self b t')
    · exact List.mem_cons_of_mem a (List.mem_cons_of_mem b h1)

lemma foldMax_ub (t : List String) : ∀ a, ∀ x ∈ a :: t, strLe x (t.foldl maxS a) := by
  induction t with
  | nil =>
    intro a x hx
    rw [List.mem_singleton.mp hx]
    exact strLe_refl a
  | cons b t' ih =>
    intro a x hx
    rw [List.foldl_cons]
    rcases List.mem_cons.mp hx with h1 | h1
    · rw [h1]
      exact strLe_trans (strLe_maxS_left a b) (ih (maxS a b) _ (List.mem_cons_self _ t'))
    · rcases List.mem_cons.mp h1 with h2 | h2
      · rw [h2]
        exact strLe_trans (strLe_maxS_right a b) (ih (maxS a b) _ (List.mem_cons_self _ t'))
      · exact ih (maxS a b) x (List.mem_cons_of_mem _ h2)

lemma getLast?_mem' {l : List String} {m : String} (h : l.getLast? = some m) : m ∈ l := by
  obtain ⟨hne, he⟩ := List.mem_getLast?_eq_getLast (show m ∈ l.getLast? from Option.mem_def.mpr h)
  rw [he]
  exact List.getLast_mem hne

lemma sorted_getLast_ub : ∀ (l : List String), l.Sorted strLe →
    ∀ m, l.getLast? = some m → ∀ x ∈ l, strLe x m := by
  intro l
  induction l with
  | nil => intro _ m hm; cases hm
  | cons a t ih =>
    intro hs m hm x hx
    rcases List.sorted_cons.mp hs with ⟨ha, hst⟩
    cases t with
    | nil =>
      have ham : a = m := by simpa using hm
      rw [List.mem_singleton.mp hx, ham]
      exact strLe_refl m
    | cons b t' =>
      have hm' : (b :: t').getLast? = some m := by
        rwa [List.getLast?_cons_cons] at hm
      rcases List.mem_cons.mp hx with h1 | h1
      · exact h1 ▸ ha m (getLast?_mem' hm')
      · exact ih hst m hm' x h1

lemma getLast?_insertionSort_eq_lexMaxOf (l : List String) :
    (List.insertionSort strLe l).getLast? = lexMaxOf l := by
  cases l with
  | nil => rfl
  | cons a t =>
    have hperm : (List.insertionSort strLe (a :: t)).Perm (a :: t) :=
      List.perm_insertionSort strLe (a :: t)
    have hsorted : (List.insertionSort strLe (a :: t)).Sorted strLe :=
      List.sorted_insertionSort strLe (a :: t)
    have hne : List.insertionSort strLe (a :: t) ≠ [] := by
      intro h
      have := hperm.length_eq
      rw [h] at this
      simp at this
    rcases hm : (List.insertionSort strLe (a :: t)).getLast? with _ | m
    · exfalso
      have hs := List.getLast?_isSome.mpr hne
      rw [hm] at hs
      simp at hs
    show some m = some (t.foldl maxS a)
    congr 1
    have hmmem : m ∈ a :: t := hperm.mem_iff.mp (getLast?_mem' hm)
    have hMmem : t.foldl maxS a ∈ a :: t := foldMax_mem t a
    have h1 : strLe m (t.foldl maxS a) := foldMax_ub t a m hmmem
    have h2 : strLe (t.foldl maxS a) m :=
      sorted_getLast_ub _ hsorted m hm _ (hperm.mem_iff.mpr hMmem)
    exact strLe_antisymm h1 h2


/-- C5 amended: the chest target is computed from the lexicographically
greatest (not the numerically greatest) "spine_"-named entry among the
mapping's targets and the rig's existing names (excluding "spine_00"):
its parsed number plus one, zero-padded to two digits, defaulting to
"spine_02" when no collected name parses.  Lexicographic and numeric
maxima agree whenever all collected names have the same digit width; in
particular scenario B yields "spine_02". -/
theorem c5_chest_resolver (names : List String) (initial_mapping : List (String × String)) :
    find_chest_spine_number names initial_mapping =
        find_chest_spine_number_by_max names initial_mapping
    ∧ ("chest", "spine_02") ∈ finalMappingOf scenarioBRig
    ∧ namesOf (runPass scenarioBRig).1 = ["pelvis", "spine", "spine_02", "spine_01"] := by
  refine ⟨?_, by decide, by decide⟩
  simp only [find_chest_spine_number, find_chest_spine_number_by_max,
    getLast?_insertionSort_eq_lexMaxOf]

/-! ### Character-level facts about the normalizer's primitive steps -/

lemma toNat_ofNat_small {n : Nat} (h1 : 97 ≤ n) (h2 : n ≤ 122) : (Char.ofNat n).toNat = n := by
  have hv : n.isValidChar := Or.inl (by omega)
  simp [Char.ofNat, hv, Char.ofNatAux, Char.toNat, UInt32.toNat, UInt32.ofNatCore]

lemma lowerC_eq_of_upper {c : Char} (h1 : 65 ≤ c.toNat) (h2 : c.toNat ≤ 90) :
    lowerC c = Char.ofNat (c.toNat + 32) := by
  unfold lowerC
  rw [if_pos]
  simp [h1, h2]

lemma lowerC_eq_of_not_upper {c : Char} (h : ¬(65 ≤ c.toNat ∧ c.toNat ≤ 90)) :
    lowerC c = c := by
  unfold lowerC
  rw [if_neg]
  simpa using h

lemma lowerC_toNat (c : Char) :
    (lowerC c).toNat = if 65 ≤ c.toNat ∧ c.toNat ≤ 90 then c.toNat + 32 else c.toNat := by
  by_cases h : 65 ≤ c.toNat ∧ c.toNat ≤ 90
  · rw [lowerC_eq_of_upper h.1 h.2, if_pos h, toNat_ofNat_small (by omega) (by omega)]
  · rw [lowerC_eq_of_not_upper h, if_neg h]

lemma lowerC_idem (c : Char) : lowerC (lowerC c) = lowerC c := by
  apply lowerC_eq_of_not_upper
  intro hcon
  rw [lowerC_toNat] at hcon
  by_cases h : 65 ≤ c.toNat ∧ c.toNat ≤ 90
  · rw [if_pos h] at hcon
    omega
  · rw [if_neg h] at hcon
    exact h hcon

lemma lowerC_ne_upper {c u : Char} (h1 : 65 ≤ u.toNat) (h2 : u.toNat ≤ 90) : lowerC c ≠ u := by
  intro he
  have ht := congrArg Char.toNat he
  rw [lowerC_toNat] at ht
  by_cases ha : 65 ≤ c.toNat <;> by_cases hb : c.toNat ≤ 90
  · rw [if_pos ⟨ha, hb⟩] at ht
    omega
  · rw [if_neg (fun hc => hb hc.2)] at ht
    omega
  · rw [if_neg (fun hc => ha hc.1)] at ht
    omega
  · rw [if_neg (fun hc => ha hc.1)] at ht
    omega

lemma eq_of_lowerC_eq {c u : Char} (hu1 : u.toNat < 97) (he : lowerC c = u) : c = u := by
  have ht := congrArg Char.toNat he
  rw [lowerC_toNat] at ht
  by_cases h : 65 ≤ c.toNat ∧ c.toNat ≤ 90
  · rw [if_pos h] at ht
    omega
  · rw [if_neg h] at ht
    exact char_toNat_inj ht

lemma isDigitC_lowerC (c : Char) : isDigitC (lowerC c) = isDigitC c := by
  by_cases h : 65 ≤ c.toNat ∧ c.toNat ≤ 90
  · have hx : (lowerC c).toNat = c.toNat + 32 := by rw [lowerC_toNat, if_pos h]
    have h1 : isDigitC (lowerC c) = false := by
      simp [isDigitC, hx]
      omega
    have h2 : isDigitC c = false := by
      simp [isDigitC]
      omega
    rw [h1, h2]
  · have hx : (lowerC c).toNat = c.toNat := by rw [lowerC_toNat, if_neg h]
    simp [isDigitC, hx]

/-! ### List-level facts about the normalizer's steps -/

lemma bnot_true_down {b : Bool} (h : (!b) = true) : b = false := by
  cases b
  · rfl
  · exact absurd h (by decide)

lemma collapseU_head : ∀ l : List Char, (collapseU l).head? = l.head? := by
  intro l
  induction l with
  | nil => rfl
  | cons c tail ih =>
    cases tail with
    | nil => rfl
    | cons d rest =>
      show (if c == '_' && d == '_' then collapseU (d :: rest)
            else c :: collapseU (d :: rest)).head? = some c
      split
      · rename_i h
        rw [ih]
        rw [Bool.and_eq_true] at h
        obtain ⟨h1, h2⟩ := h
        rw [beq_iff_eq] at h1 h2
        rw [h1, h2]
        rfl
      · rfl

lemma noDoubleU_collapseU : ∀ l : List Char, noDoubleU (collapseU l) = true := by
  intro l
  induction l with
  | nil => rfl
  | cons c tail ih =>
    cases tail with
    | nil => rfl
    | cons d rest =>
      show noDoubleU (if c == '_' && d == '_' then collapseU (d :: rest)
            else c :: collapseU (d :: rest)) = true
      split
      · exact ih
      · rename_i h
        cases hX : collapseU (d :: rest) with
        | nil => rfl
        | cons x xs =>
          have hx : x = d := by
            have hh := collapseU_head (d :: rest)
            rw [hX] at hh
            simpa using hh
          rw [hX] at ih
          show (!(c == '_' && x == '_') && noDoubleU (x :: xs)) = true
          rw [Bool.and_eq_true]
          refine ⟨?_, ih⟩
          rw [hx, Bool.eq_false_iff.mpr h]
          rfl

lemma collapseU_id_of_noDouble : ∀ l : List Char, noDoubleU l = true → collapseU l = l := by
  intro l
  induction l with
  | nil => intro _; rfl
  | cons c tail ih =>
    cases tail with
    | nil => intro _; rfl
    | cons d rest =>
      intro h
      have hsplit : (!(c == '_' && d == '_') && noDoubleU (d :: rest)) = true := h
      rw [Bool.and_eq_true] at hsplit
      obtain ⟨h1, h2⟩ := hsplit
      have hc : (c == '_' && d == '_') = false := bnot_true_down h1
      show (if c == '_' && d == '_' then collapseU (d :: rest)
            else c :: collapseU (d :: rest)) = c :: d :: rest
      rw [if_neg (by simp [hc])]
      rw [ih h2]

lemma collapseU_idem (l : List Char) : collapseU (collapseU l) = collapseU l :=
  collapseU_id_of_noDouble _ (noDoubleU_collapseU l)

lemma mem_collapseU : ∀ l : List Char, ∀ x ∈ collapseU l, x ∈ l := by
  intro l
  induction l with
  | nil => intro x hx; exact absurd hx (List.not_mem_nil x)
  | cons c tail ih =>
    cases tail with
    | nil => intro x hx; exact hx
    | cons d rest =>
      intro x hx
      rw [show collapseU (c :: d :: rest) =
          (if c == '_' && d == '_' then collapseU (d :: rest)
           else c :: collapseU (d :: rest)) from rfl] at hx
      split at hx
      · exact List.mem_cons_of_mem c (ih x hx)
      · rcases List.mem_cons.mp hx with h1 | h1
        · rw [h1]; exact List.mem_cons_self c _
        · exact List.mem_cons_of_mem c (ih x h1)

lemma noDotD_tail {c : Char} {l : List Char} (h : noDotD (c :: l) = true) : noDotD l = true := by
  cases l with
  | nil => rfl
  | cons d rest =>
    have hsplit : (!(c == '.' && isDigitC d) && noDotD (d :: rest)) = true := h
    rw [Bool.and_eq_true] at hsplit
    exact hsplit.2

lemma noDotD_collapseU : ∀ l : List Char, noDotD l = true → noDotD (collapseU l) = true := by
  intro l
  induction l with
  | nil => intro _; rfl
  | cons c tail ih =>
    cases tail with
    | nil => intro _; rfl
    | cons d rest =>
      intro h
      have hsplit : (!(c == '.' && isDigitC d) && noDotD (d :: rest)) = true := h
      rw [Bool.and_eq_true] at hsplit
      obtain ⟨h1, h2⟩ := hsplit
      show noDotD (if c == '_' && d == '_' then collapseU (d :: rest)
            else c :: collapseU (d :: rest)) = true
      split
      · exact ih h2
      · cases hX : collapseU (d :: rest) with
        | nil => rfl
        | cons x xs =>
          have hx : x = d := by
            have hh := collapseU_head (d :: rest)
            rw [hX] at hh
            simpa using hh
          have ihx := ih h2
          rw [hX] at ihx
          show (!(c == '.' && isDigitC x) && noDotD (x :: xs)) = true
          rw [Bool.and_eq_true]
          exact ⟨by rw [hx]; exact h1, ihx⟩

lemma noDotD_subDotDigits : ∀ l : List Char, noDotD (subDotDigits l) = true := by
  intro l
  induction l with
  | nil => rfl
  | cons c tail ih =>
    cases tail with
    | nil => rfl
    | cons d rest =>
      show noDotD ((if c == '.' && isDigitC d then '_' else c) :: subDotDigits (d :: rest)) = true
      cases hX : subDotDigits (d :: rest) with
      | nil => rfl
      | cons x xs =>
        rw [hX] at ih
        show (!((if c == '.' && isDigitC d then '_' else c) == '.' && isDigitC x)
              && noDotD (x :: xs)) = true
        rw [Bool.and_eq_true]
        refine ⟨?_, ih⟩
        have hxval : x = '_' ∨ x = d := by
          cases rest with
          | nil =>
            have : subDotDigits [d] = [d] := rfl
            rw [this] at hX
            obtain ⟨h1, -⟩ := List.cons.inj hX.symm
            exact Or.inr h1
          | cons e rrest =>
            have : subDotDigits (d :: e :: rrest) =
                (if d == '.' && isDigitC e then '_' else d) :: subDotDigits (e :: rrest) := rfl
            rw [this] at hX
            obtain ⟨h1, -⟩ := List.cons.inj hX.symm
            by_cases hde : (d == '.' && isDigitC e) = true
            · rw [if_pos hde] at h1
              exact Or.inl h1
            · rw [if_neg hde] at h1
              exact Or.inr h1
        by_cases hcd : (c == '.' && isDigitC d) = true
        · rw [if_pos hcd]
          simp
        · rw [if_neg hcd]
          rcases hxval with hx1 | hx1
          · rw [hx1]
            simp [isDigitC]
          · rw [hx1, Bool.eq_false_iff.mpr hcd]
            rfl

lemma subDotDigits_id_of_noDotD : ∀ l : List Char, noDotD l = true → subDotDigits l = l := by
  intro l
  induction l with
  | nil => intro _; rfl
  | cons c tail ih =>
    cases tail with
    | nil => intro _; rfl
    | cons d rest =>
      intro h
      have hsplit : (!(c == '.' && isDigitC d) && noDotD (d :: rest)) = true := h
      rw [Bool.and_eq_true] at hsplit
      obtain ⟨h1, h2⟩ := hsplit
      show (if c == '.' && isDigitC d then '_' else c) :: subDotDigits (d :: rest) = c :: d :: rest
      have hc : (c == '.' && isDigitC d) = false := bnot_true_down h1
      rw [if_neg (by simp [hc]), ih h2]

lemma noDotD_map_lowerC : ∀ l : List Char, noDotD l = true → noDotD (List.map lowerC l) = true := by
  intro l
  induction l with
  | nil => intro _; rfl
  | cons c tail ih =>
    cases tail with
    | nil => intro _; rfl
    | cons d rest =>
      intro h
      have hsplit : (!(c == '.' && isDigitC d) && noDotD (d :: rest)) = true := h
      rw [Bool.and_eq_true] at hsplit
      obtain ⟨h1, h2⟩ := hsplit
      show (!(lowerC c == '.' && isDigitC (lowerC d)) && noDotD (List.map lowerC (d :: rest))) = true
      rw [Bool.and_eq_true]
      refine ⟨?_, ih h2⟩
      by_cases hcc : lowerC c = '.'
      · have hcdot : c = '.' := eq_of_lowerC_eq (by decide) hcc
        have hd : isDigitC d = false := by
          have hf : (c == '.' && isDigitC d) = false := bnot_true_down h1
          rw [beq_iff_eq.mpr hcdot] at hf
          simpa using hf
        rw [isDigitC_lowerC, hd]
        simp
      · have : (lowerC c == '.') = false := beq_eq_false_iff_ne.mpr hcc
        rw [this]
        simp

lemma map_lowerC_fixed : ∀ l : List Char, ∀ x ∈ List.map lowerC l, lowerC x = x := by
  intro l x hx
  obtain ⟨y, -, hy⟩ := List.mem_map.mp hx
  rw [← hy]
  exact lowerC_idem y

lemma map_lowerC_id_of_fixed {l : List Char} (h : ∀ x ∈ l, lowerC x = x) :
    List.map lowerC l = l := by
  rw [List.map_congr_left h]
  exact List.map_id l

lemma replace2_id_of_not_second (p1 p2 q1 q2 : Char) :
    ∀ l : List Char, (∀ x ∈ l, x ≠ p2) → replace2 p1 p2 q1 q2 l = l := by
  intro l
  induction l with
  | nil => intro _; rfl
  | cons c tail ih =>
    cases tail with
    | nil => intro _; rfl
    | cons d rest =>
      intro h
      have hd : d ≠ p2 := h d (List.mem_cons_of_mem c (List.mem_cons_self d rest))
      show (if c == p1 && d == p2 then q1 :: q2 :: replace2 p1 p2 q1 q2 rest
            else c :: replace2 p1 p2 q1 q2 (d :: rest)) = c :: d :: rest
      rw [if_neg (by simp [beq_eq_false_iff_ne.mpr hd])]
      rw [ih (fun x hx => h x (List.mem_cons_of_mem c hx))]

/-! ### Claim C9: the normalizer is idempotent -/

lemma no_upper_after_lower (X : List Char) {u : Char} (h1 : 65 ≤ u.toNat) (h2 : u.toNat ≤ 90) :
    ∀ x ∈ collapseU (List.map lowerC X), x ≠ u := by
  intro x hx
  obtain ⟨y, -, hy⟩ := List.mem_map.mp (mem_collapseU _ x hx)
  rw [← hy]
  exact lowerC_ne_upper h1 h2

lemma stdList_idem (u : List Char) :
    collapseU (List.map lowerC (subDotDigits (replace2 '.' 'R' '_' 'r' (replace2 '.' 'L' '_' 'l'
      (collapseU (List.map lowerC (subDotDigits
        (replace2 '.' 'R' '_' 'r' (replace2 '.' 'L' '_' 'l' u))))))))) =
    collapseU (List.map lowerC (subDotDigits
      (replace2 '.' 'R' '_' 'r' (replace2 '.' 'L' '_' 'l' u)))) := by
  generalize hX : subDotDigits (replace2 '.' 'R' '_' 'r' (replace2 '.' 'L' '_' 'l' u)) = X
  have hnd : noDotD X = true := by
    rw [← hX]
    exact noDotD_subDotDigits _
  have hnoL : ∀ x ∈ collapseU (List.map lowerC X), x ≠ 'L' :=
    no_upper_after_lower X (by decide) (by decide)
  have hnoR : ∀ x ∈ collapseU (List.map lowerC X), x ≠ 'R' :=
    no_upper_after_lower X (by decide) (by decide)
  rw [replace2_id_of_not_second '.' 'L' '_' 'l' _ hnoL]
  rw [replace2_id_of_not_second '.' 'R' '_' 'r' _ hnoR]
  rw [subDotDigits_id_of_noDotD _ (noDotD_collapseU _ (noDotD_map_lowerC _ hnd))]
  rw [map_lowerC_id_of_fixed (fun x hx => map_lowerC_fixed _ x (mem_collapseU _ x hx))]
  exact collapseU_idem _

/-- C9: the name normalizer is idempotent — standardizing an
already-standardized name changes nothing: no ".L"/".R" and no
dot-digit pattern survives a first pass, the result is fully
lower-case, and underscore runs are already collapsed. -/
theorem c9_standardize_idempotent (s : String) :
    standardize_bone_name (standardize_bone_name s) = standardize_bone_name s := by
  unfold standardize_bone_name
  exact congrArg String.mk (stdList_idem s.data)

/-! ### Claim C10: side markers are replaced everywhere, first -/

lemma bor_false_split {a b : Bool} (h : (a || b) = false) : a = false ∧ b = false := by
  cases a <;> cases b <;> simp_all

lemma hasPair_tail_false {a b c : Char} {l : List Char}
    (h : hasPair a b (c :: l) = false) : hasPair a b l = false := by
  cases l with
  | nil => rfl
  | cons d rest =>
    exact (bor_false_split (show ((c == a && d == b) || hasPair a b (d :: rest)) = false from h)).2

lemma replace2_head_cases (p1 p2 q1 q2 : Char) (d : Char) (rest : List Char) :
    (replace2 p1 p2 q1 q2 (d :: rest)).head? = some q1 ∨
    (replace2 p1 p2 q1 q2 (d :: rest)).head? = some d := by
  cases rest with
  | nil => right; rfl
  | cons e r2 =>
    by_cases hg : (d == p1 && e == p2) = true
    · left
      show (if d == p1 && e == p2 then q1 :: q2 :: replace2 p1 p2 q1 q2 r2
            else d :: replace2 p1 p2 q1 q2 (e :: r2)).head? = some q1
      rw [if_pos hg]
      rfl
    · right
      show (if d == p1 && e == p2 then q1 :: q2 :: replace2 p1 p2 q1 q2 r2
            else d :: replace2 p1 p2 q1 q2 (e :: r2)).head? = some d
      rw [if_neg hg]
      rfl

lemma hasPair_replace2_self (p1 p2 q1 q2 : Char)
    (hq1 : q1 ≠ p1) (hq2 : q2 ≠ p1) (hq3 : q1 ≠ p2) :
    ∀ l : List Char, hasPair p1 p2 (replace2 p1 p2 q1 q2 l) = false
  | [] => rfl
  | [_] => rfl
  | c :: d :: rest => by
    show hasPair p1 p2 (if c == p1 && d == p2 then q1 :: q2 :: replace2 p1 p2 q1 q2 rest
          else c :: replace2 p1 p2 q1 q2 (d :: rest)) = false
    split
    · show ((q1 == p1 && q2 == p2) || hasPair p1 p2 (q2 :: replace2 p1 p2 q1 q2 rest)) = false
      rw [beq_eq_false_iff_ne.mpr hq1, Bool.false_and, Bool.false_or]
      cases hR : replace2 p1 p2 q1 q2 rest with
      | nil => rfl
      | cons x xs =>
        show ((q2 == p1 && x == p2) || hasPair p1 p2 (x :: xs)) = false
        rw [beq_eq_false_iff_ne.mpr hq2, Bool.false_and, Bool.false_or]
        have hrec := hasPair_replace2_self p1 p2 q1 q2 hq1 hq2 hq3 rest
        rw [hR] at hrec
        exact hrec
    · rename_i hg
      cases hR : replace2 p1 p2 q1 q2 (d :: rest) with
      | nil => rfl
      | cons x xs =>
        show ((c == p1 && x == p2) || hasPair p1 p2 (x :: xs)) = false
        have htail := hasPair_replace2_self p1 p2 q1 q2 hq1 hq2 hq3 (d :: rest)
        rw [hR] at htail
        have hfirst : (c == p1 && x == p2) = false := by
          by_cases hc : c = p1
          · have hd : d ≠ p2 := by
              intro hdp
              exact hg (by simp [hc, hdp])
            rcases replace2_head_cases p1 p2 q1 q2 d rest with hh | hh <;> rw [hR] at hh
            · have hx : x = q1 := by simpa using hh
              rw [hx, beq_eq_false_iff_ne.mpr hq3, Bool.and_false]
            · have hx : x = d := by simpa using hh
              rw [hx, beq_eq_false_iff_ne.mpr hd, Bool.and_false]
          · rw [beq_eq_false_iff_ne.mpr hc, Bool.false_and]
        rw [hfirst, htail]
        rfl

lemma hasPair_replace2_other (p1 p2 p1' p2' q1' q2' : Char)
    (hA : ¬(q1' = p1 ∧ q2' = p2)) (hB : q2' ≠ p1) (hC : q1' ≠ p2) :
    ∀ l : List Char, hasPair p1 p2 l = false →
      hasPair p1 p2 (replace2 p1' p2' q1' q2' l) = false
  | [], _ => rfl
  | [_], _ => rfl
  | c :: d :: rest, h => by
    obtain ⟨hp1, hp2⟩ :=
      bor_false_split (show ((c == p1 && d == p2) || hasPair p1 p2 (d :: rest)) = false from h)
    show hasPair p1 p2 (if c == p1' && d == p2' then q1' :: q2' :: replace2 p1' p2' q1' q2' rest
          else c :: replace2 p1' p2' q1' q2' (d :: rest)) = false
    split
    · show ((q1' == p1 && q2' == p2) || hasPair p1 p2 (q2' :: replace2 p1' p2' q1' q2' rest)) = false
      have hfirst : (q1' == p1 && q2' == p2) = false := by
        by_cases h1 : q1' = p1
        · rw [beq_eq_false_iff_ne.mpr (fun h2 => hA ⟨h1, h2⟩), Bool.and_false]
        · rw [beq_eq_false_iff_ne.mpr h1, Bool.false_and]
      rw [hfirst, Bool.false_or]
      cases hR : replace2 p1' p2' q1' q2' rest with
      | nil => rfl
      | cons x xs =>
        show ((q2' == p1 && x == p2) || hasPair p1 p2 (x :: xs)) = false
        rw [beq_eq_false_iff_ne.mpr hB, Bool.false_and, Bool.false_or]
        have hrec := hasPair_replace2_other p1 p2 p1' p2' q1' q2' hA hB hC rest
          (hasPair_tail_false hp2)
        rw [hR] at hrec
        exact hrec
    · rename_i hg
      cases hR : replace2 p1' p2' q1' q2' (d :: rest) with
      | nil => rfl
      | cons x xs =>
        show ((c == p1 && x == p2) || hasPair p1 p2 (x :: xs)) = false
        have htail := hasPair_replace2_other p1 p2 p1' p2' q1' q2' hA hB hC (d :: rest) hp2
        rw [hR] at htail
        have hfirst : (c == p1 && x == p2) = false := by
          by_cases hc : c = p1
          · have hd : d ≠ p2 := by
              intro hdp
              exact absurd hp1 (by simp [hc, hdp])
            rcases replace2_head_cases p1' p2' q1' q2' d rest with hh | hh <;> rw [hR] at hh
            · have hx : x = q1' := by simpa using hh
              rw [hx, beq_eq_false_iff_ne.mpr hC, Bool.and_false]
            · have hx : x = d := by simpa using hh
              rw [hx, beq_eq_false_iff_ne.mpr hd, Bool.and_false]
          · rw [beq_eq_false_iff_ne.mpr hc, Bool.false_and]
        rw [hfirst, htail]
        rfl

/-- C10: the normalizer's first step replaces every occurrence of ".L"
and ".R" anywhere in the name — after the two side-marker replacements
(which by definition precede the dot-digit rewrite and the lowering) no
".L" or ".R" two-character pattern remains anywhere; the infix marker of
"arm.L.001" is rewritten, and "Arm.L" becomes "arm_l" (were lowering
applied first, ".L" would no longer match and the result would be
"arm.l"). -/
theorem c10_side_markers_replaced_everywhere :
    (∀ s : String,
      hasPair '.' 'L' (replace2 '.' 'R' '_' 'r' (replace2 '.' 'L' '_' 'l' s.data)) = false
      ∧ hasPair '.' 'R' (replace2 '.' 'R' '_' 'r' (replace2 '.' 'L' '_' 'l' s.data)) = false)
    ∧ standardize_bone_name "arm.L.001" = "arm_l_001"
    ∧ standardize_bone_name "Arm.L" = "arm_l" := by
  refine ⟨fun s => ⟨?_, ?_⟩, by decide, by decide⟩
  · exact hasPair_replace2_other '.' 'L' '.' 'R' '_' 'r' (by decide) (by decide) (by decide)
      (replace2 '.' 'L' '_' 'l' s.data)
      (hasPair_replace2_self '.' 'L' '_' 'l' (by decide) (by decide) (by decide) s.data)
  · exact hasPair_replace2_self '.' 'R' '_' 'r' (by decide) (by decide) (by decide) _

end RenameArmature
